import Mathlib

/-!
Package `annihilation`: argument partitioning and dispatch of `Run`.

Shallow embedding of `annihilate.go` (package `annihilation`).

* Go strings are Lean `String`s, `[]string` is `List String` (a nil slice and an
  empty slice are both `[]`; the tests only use `require.Empty` / `require.Equal`
  on their contents).
* The registry `Apps` (`map[string]AppFunc`) is its lookup function
  `String → Option AppFunc`: `apps arg = some f` is `f, exists := apps[arg]` with
  `exists == true`.
* A handler may have effects; these are made explicit by passing a world `σ`.
  A func value may be nil; calling it panics (`Outcome.panic`).
* `parallel.Run` belongs to another module (`github.com/outofforest/parallel`);
  it is a parameter `pRun` which receives the context and the spawn calls the
  start function makes, in order.
-/

namespace Annihilation

/-- What a call of a Go `func(...) error` value produces: it returns an error value
(`none` is the nil error) and leaves a new world, or it panics. -/
inductive Outcome (ε σ : Type) where
  | ret (err : Option ε) (world : σ)
  | panic

/-- Type `AppFunc func(ctx context.Context, args []string) error`: nil, or a function. -/
inductive AppFunc (Ctx ε σ : Type) where
  | nil
  | fn (body : Ctx → List String → σ → Option ε × σ)

/-- Type `Apps map[string]AppFunc`, as its lookup function. -/
abbrev Apps (Ctx ε σ : Type) := String → Option (AppFunc Ctx ε σ)

/-- Type `parallel.Task`, `func(ctx context.Context) error`. -/
abbrev Task (Ctx ε σ : Type) := Ctx → σ → Outcome ε σ

/-- Struct `appInfo`. -/
structure appInfo (Ctx ε σ : Type) where
  Name : String
  Args : List String
  Func : AppFunc Ctx ε σ

/-- The `parallel.OnExit` modes (only `Fail` is used by `Run`). -/
inductive OnExit where
  | Continue
  | Exit
  | Fail
  deriving DecidableEq, Repr

/-- One call `spawn(name, onExit, task)` made by the start function given to `parallel.Run`. -/
structure SpawnCall (Ctx ε σ : Type) where
  name : String
  onExit : OnExit
  task : Task Ctx ε σ

/-- The three values returned by `Run`: `([]string, parallel.Task, error)`.
An error made by `errors.New(msg)` is its message. -/
structure RunResult (Ctx ε σ : Type) where
  unclaimedArgs : List String
  runnable : Option (Task Ctx ε σ)
  err : Option String

section
variable {Ctx ε σ : Type}

/-- Call of a func value `f(ctx, args)`. -/
def AppFunc.call : AppFunc Ctx ε σ → Ctx → List String → σ → Outcome ε σ
  | .nil, _, _, _ => .panic
  | .fn body, ctx, args, w => .ret (body ctx args w).1 (body ctx args w).2

/-- The zero value of `appInfo` (`var info appInfo`). -/
def appInfo.zero : appInfo Ctx ε σ := { Name := "", Args := [], Func := .nil }

/-- The loop `for _, arg := range args[1:]` of `Run` followed by the final
`parsedApps = append(parsedApps, info)`; the state is `(parsedApps, info)`. -/
def scan (apps : Apps Ctx ε σ) :
    List (appInfo Ctx ε σ) → appInfo Ctx ε σ → List String → List (appInfo Ctx ε σ)
  | parsedApps, info, [] => parsedApps ++ [info]
  | parsedApps, info, arg :: rest =>
    match apps arg with
    | some appFunc =>
      scan apps (parsedApps ++ [info]) { Name := arg, Args := [], Func := appFunc } rest
    | none => scan apps parsedApps { info with Args := info.Args ++ [arg] } rest

/-- The closure returned by `Run`, over the captured `parsedApps`. The start function
given to `parallel.Run` is represented by the spawn calls it makes, one per iteration
of `for _, app := range parsedApps`; each task closure refers to the `app` of its own
iteration (per-iteration loop variables, the semantics of Go 1.22 and later). -/
def runTask (pRun : Ctx → List (SpawnCall Ctx ε σ) → σ → Outcome ε σ)
    (parsedApps : List (appInfo Ctx ε σ)) : Task Ctx ε σ := fun ctx w =>
  if h : parsedApps.length = 1 then
    (parsedApps.get ⟨0, by omega⟩).Func.call ctx (parsedApps.get ⟨0, by omega⟩).Args w
  else
    pRun ctx
      (parsedApps.map fun app =>
        { name := app.Name, onExit := OnExit.Fail,
          task := fun ctx w => app.Func.call ctx app.Args w })
      w

/-- Value of `parsedApps` after the scan (line 37 of `annihilate.go`). -/
def parsedApps (apps : Apps Ctx ε σ) (args : List String) : List (appInfo Ctx ε σ) :=
  scan apps [] appInfo.zero (args.drop 1)

/-- Function `Run(apps Apps, args ...string) ([]string, parallel.Task, error)`. -/
def Run (pRun : Ctx → List (SpawnCall Ctx ε σ) → σ → Outcome ε σ)
    (apps : Apps Ctx ε σ) (args : List String) : RunResult Ctx ε σ :=
  if args.length < 2 then
    { unclaimedArgs := [], runnable := none, err := some "no arguments provided" }
  else
    let parsed := parsedApps apps args
    if h : parsed.length < 2 then
      { unclaimedArgs := [], runnable := none, err := some "no applications to execute" }
    else
      let localArgs := (parsed.get ⟨0, by omega⟩).Args
      let parsed := parsed.drop 1
      { unclaimedArgs := localArgs, runnable := some (runTask pRun parsed), err := none }

/-- The invocation entries: `parsedApps` as captured by the returned closure
(after `parsedApps = parsedApps[1:]`). -/
def entries (apps : Apps Ctx ε σ) (args : List String) : List (appInfo Ctx ε σ) :=
  (parsedApps apps args).drop 1

/-- Whether a token is a key of the registry (`_, exists := apps[arg]`). -/
def isKey (apps : Apps Ctx ε σ) (arg : String) : Bool := (apps arg).isSome

/-- The tokens an entry stands for in the vector: its name, then its arguments. -/
def appInfo.tokens (e : appInfo Ctx ε σ) : List String := e.Name :: e.Args

/-- The handler of `newApps` in `annihilate_test.go` for application number `i`:
it sends the arguments it received on its channel and returns `ctx.Err()`.
The world is the content of the two channels `(app1Ch, app2Ch)`; the context is
the error it reports once done. -/
def recordingApp (i : Nat) :
    AppFunc (Option String) String (List (List String) × List (List String)) :=
  .fn fun ctx args w => (ctx, if i = 1 then (w.1 ++ [args], w.2) else (w.1, w.2 ++ [args]))

/-- The registry built by `newApps` in `annihilate_test.go`. -/
def newApps : Apps (Option String) String (List (List String) × List (List String)) :=
  fun name =>
    if name = "app1" then some (recordingApp 1)
    else if name = "app2" then some (recordingApp 2)
    else none

/-- A task group that runs the spawned tasks one after the other and stops at the
first one that does not return nil; one possible behaviour of `parallel.Run`,
used to instantiate the parameter `pRun` on concrete inputs. -/
def seqRun : Ctx → List (SpawnCall Ctx ε σ) → σ → Outcome ε σ
  | _, [], w => .ret none w
  | ctx, c :: cs, w =>
    match c.task ctx w with
    | .ret none w1 => seqRun ctx cs w1
    | other => other

/-! ## The scan -/

theorem scan_acc (apps : Apps Ctx ε σ) (acc : List (appInfo Ctx ε σ)) (info : appInfo Ctx ε σ)
    (xs : List String) : scan apps acc info xs = acc ++ scan apps [] info xs := by
  induction xs generalizing acc info with
  | nil => simp [scan]
  | cons arg rest ih =>
    cases h : apps arg with
    | none => simp only [scan, h]; exact ih _ _
    | some f =>
      simp only [scan, h]
      rw [ih (acc ++ [info]), ih ([] ++ [info])]
      simp

theorem scan_nil (apps : Apps Ctx ε σ) (info : appInfo Ctx ε σ) :
    scan apps [] info [] = [info] := by
  simp [scan]

theorem scan_cons_key (apps : Apps Ctx ε σ) (info : appInfo Ctx ε σ) (arg : String)
    (rest : List String) (f : AppFunc Ctx ε σ) (h : apps arg = some f) :
    scan apps [] info (arg :: rest)
      = info :: scan apps [] { Name := arg, Args := [], Func := f } rest := by
  simp only [scan, h]
  rw [scan_acc]
  simp

theorem scan_cons_other (apps : Apps Ctx ε σ) (info : appInfo Ctx ε σ) (arg : String)
    (rest : List String) (h : apps arg = none) :
    scan apps [] info (arg :: rest)
      = scan apps [] { info with Args := info.Args ++ [arg] } rest := by
  simp only [scan, h]

theorem scan_no_key (apps : Apps Ctx ε σ) (info : appInfo Ctx ε σ) (xs : List String)
    (h : ∀ a ∈ xs, apps a = none) :
    scan apps [] info xs = [{ info with Args := info.Args ++ xs }] := by
  induction xs generalizing info with
  | nil => simp [scan]
  | cons arg rest ih =>
    rw [scan_cons_other apps info arg rest (h arg (by simp))]
    rw [ih _ (fun a ha => h a (by simp [ha]))]
    simp

theorem scan_append_key (apps : Apps Ctx ε σ) (info : appInfo Ctx ε σ) (pre : List String)
    (name : String) (rest : List String) (f : AppFunc Ctx ε σ)
    (hpre : ∀ a ∈ pre, apps a = none) (h : apps name = some f) :
    scan apps [] info (pre ++ name :: rest)
      = { info with Args := info.Args ++ pre }
          :: scan apps [] { Name := name, Args := [], Func := f } rest := by
  induction pre generalizing info with
  | nil => simpa using scan_cons_key apps info name rest f h
  | cons arg pre ih =>
    rw [List.cons_append, scan_cons_other apps info arg _ (hpre arg (by simp))]
    rw [ih _ (fun a ha => hpre a (by simp [ha]))]
    simp

theorem scan_length (apps : Apps Ctx ε σ) (info : appInfo Ctx ε σ) (xs : List String) :
    (scan apps [] info xs).length = 1 + (xs.filter (isKey apps)).length := by
  induction xs generalizing info with
  | nil => simp [scan]
  | cons arg rest ih =>
    cases h : apps arg with
    | none =>
      rw [scan_cons_other apps info arg rest h, ih]
      simp [List.filter_cons, isKey, h]
    | some f =>
      rw [scan_cons_key apps info arg rest f h, List.length_cons, ih]
      simp [List.filter_cons, isKey, h]
      omega

theorem scan_ne_nil (apps : Apps Ctx ε σ) (info : appInfo Ctx ε σ) (xs : List String) :
    scan apps [] info xs ≠ [] := by
  intro h
  have := scan_length apps info xs
  rw [h] at this
  simp at this
  omega

/-- The first element of the scan keeps the name and handler of the initial
accumulator; the other elements are the entries. -/
theorem scan_eq_cons (apps : Apps Ctx ε σ) (info : appInfo Ctx ε σ) (xs : List String) :
    ∃ first rest, scan apps [] info xs = first :: rest := by
  cases h : scan apps [] info xs with
  | nil => exact absurd h (scan_ne_nil apps info xs)
  | cons first rest => exact ⟨first, rest, rfl⟩

/-- The first element of the scan is the initial accumulator with more arguments. -/
theorem scan_first (apps : Apps Ctx ε σ) (info : appInfo Ctx ε σ) (xs : List String) :
    ∃ a rest, scan apps [] info xs = { info with Args := a } :: rest := by
  induction xs generalizing info with
  | nil => exact ⟨info.Args, [], by simp [scan]⟩
  | cons arg xs ih =>
    cases h : apps arg with
    | none =>
      rw [scan_cons_other apps info arg xs h]
      exact ih _
    | some f =>
      rw [scan_cons_key apps info arg xs f h]
      exact ⟨info.Args, _, rfl⟩

/-- Scanning a prefix without keys followed by blocks `name :: args` (names are keys,
arguments are not) gives back the prefix and the blocks. -/
theorem scan_blocks (apps : Apps Ctx ε σ) (info : appInfo Ctx ε σ) (pre : List String)
    (pairs : List (String × List String))
    (hname : ∀ p ∈ pairs, isKey apps p.1 = true)
    (hpre : ∀ a ∈ pre, isKey apps a = false)
    (hargs : ∀ p ∈ pairs, ∀ a ∈ p.2, isKey apps a = false) :
    ∃ rest, scan apps [] info (pre ++ pairs.flatMap (fun p => p.1 :: p.2))
        = { info with Args := info.Args ++ pre } :: rest
      ∧ rest.map (fun e => (e.Name, e.Args)) = pairs := by
  induction pairs generalizing info pre with
  | nil =>
    refine ⟨[], ?_, rfl⟩
    simp only [List.flatMap_nil, List.append_nil]
    exact scan_no_key apps info pre (fun a ha => by simpa [isKey] using hpre a ha)
  | cons p ps ih =>
    have hk : isKey apps p.1 = true := hname p (by simp)
    obtain ⟨f, hf⟩ : ∃ f, apps p.1 = some f := by
      simpa [isKey, Option.isSome_iff_exists] using hk
    obtain ⟨rest, hrest, hmap⟩ := ih { Name := p.1, Args := [], Func := f } p.2
      (fun q hq => hname q (by simp [hq])) (hargs p (by simp))
      (fun q hq => hargs q (by simp [hq]))
    refine ⟨{ Name := p.1, Args := p.2, Func := f } :: rest, ?_, ?_⟩
    · rw [List.flatMap_cons, List.cons_append]
      rw [scan_append_key apps info pre p.1 _ f
        (fun a ha => by simpa [isKey] using hpre a ha) hf, hrest]
      simp
    · simp [hmap]

/-! ## The three exits of `Run` -/

theorem parsedApps_length (apps : Apps Ctx ε σ) (args : List String) :
    (parsedApps apps args).length = 1 + ((args.drop 1).filter (isKey apps)).length :=
  scan_length apps appInfo.zero (args.drop 1)

theorem entries_length (apps : Apps Ctx ε σ) (args : List String) :
    (entries apps args).length = ((args.drop 1).filter (isKey apps)).length := by
  simp [entries, parsedApps_length]

theorem Run_short (pRun : Ctx → List (SpawnCall Ctx ε σ) → σ → Outcome ε σ)
    (apps : Apps Ctx ε σ) (args : List String) (h : args.length < 2) :
    Run pRun apps args
      = { unclaimedArgs := [], runnable := none, err := some "no arguments provided" } := by
  simp [Run, h]

theorem Run_no_apps (pRun : Ctx → List (SpawnCall Ctx ε σ) → σ → Outcome ε σ)
    (apps : Apps Ctx ε σ) (args : List String) (h : 2 ≤ args.length)
    (h2 : entries apps args = []) :
    Run pRun apps args
      = { unclaimedArgs := [], runnable := none, err := some "no applications to execute" } := by
  have hlen : (parsedApps apps args).length < 2 := by
    have := entries_length apps args
    rw [h2, List.length_nil] at this
    rw [parsedApps_length]
    omega
  have h1 : ¬ args.length < 2 := by omega
  simp [Run, h1, hlen]

theorem Run_ok (pRun : Ctx → List (SpawnCall Ctx ε σ) → σ → Outcome ε σ)
    (apps : Apps Ctx ε σ) (args : List String) (h : 2 ≤ args.length)
    (h2 : entries apps args ≠ []) :
    ∃ first, parsedApps apps args = first :: entries apps args
      ∧ Run pRun apps args
        = { unclaimedArgs := first.Args, runnable := some (runTask pRun (entries apps args)),
            err := none } := by
  obtain ⟨first, rest, hfr⟩ := scan_eq_cons apps (appInfo.zero) (args.drop 1)
  have hp : parsedApps apps args = first :: rest := hfr
  have he : entries apps args = rest := by simp [entries, hp]
  refine ⟨first, by rw [hp, he], ?_⟩
  have hlen : ¬ (parsedApps apps args).length < 2 := by
    rw [hp]
    rw [he] at h2
    cases rest with
    | nil => exact absurd rfl h2
    | cons a l => simp
  have h1 : ¬ args.length < 2 := by omega
  simp only [Run, h1, hlen, if_false, dite_false]
  simp [hp, he]

/-- `Run` succeeds exactly when the vector has two tokens or more and there is an entry. -/
theorem Run_err_eq_none_iff (pRun : Ctx → List (SpawnCall Ctx ε σ) → σ → Outcome ε σ)
    (apps : Apps Ctx ε σ) (args : List String) :
    (Run pRun apps args).err = none ↔ 2 ≤ args.length ∧ entries apps args ≠ [] := by
  by_cases h : args.length < 2
  · rw [Run_short pRun apps args h]
    simp
    omega
  · by_cases h2 : entries apps args = []
    · rw [Run_no_apps pRun apps args (by omega) h2]
      simp [h2]
    · obtain ⟨first, _, hrun⟩ := Run_ok pRun apps args (by omega) h2
      rw [hrun]
      simp [h2]
      omega

/-- What a successful `Run` returns, in terms of the scan. -/
theorem Run_success (pRun : Ctx → List (SpawnCall Ctx ε σ) → σ → Outcome ε σ)
    (apps : Apps Ctx ε σ) (args : List String) (h : (Run pRun apps args).err = none) :
    parsedApps apps args
        = { (appInfo.zero : appInfo Ctx ε σ) with Args := (Run pRun apps args).unclaimedArgs }
            :: entries apps args
      ∧ (Run pRun apps args).runnable = some (runTask pRun (entries apps args)) := by
  obtain ⟨hlen, hne⟩ := (Run_err_eq_none_iff pRun apps args).1 h
  obtain ⟨first, hp, hrun⟩ := Run_ok pRun apps args hlen hne
  obtain ⟨a, rest, hfirst⟩ := scan_first apps (appInfo.zero : appInfo Ctx ε σ) (args.drop 1)
  have hp2 : parsedApps apps args = first :: entries apps args := hp
  unfold parsedApps at hp2
  rw [hfirst] at hp2
  have hf : first = { (appInfo.zero : appInfo Ctx ε σ) with Args := a } :=
    (List.cons.inj hp2).1.symm
  rw [hrun, hp]
  subst hf
  exact ⟨rfl, rfl⟩

/-! ## What the scan keeps -/

theorem scan_tokens (apps : Apps Ctx ε σ) (info : appInfo Ctx ε σ) (xs : List String) :
    (scan apps [] info xs).flatMap appInfo.tokens = info.tokens ++ xs := by
  induction xs generalizing info with
  | nil => simp [scan]
  | cons arg rest ih =>
    cases h : apps arg with
    | none =>
      rw [scan_cons_other apps info arg rest h, ih]
      simp [appInfo.tokens]
    | some f =>
      rw [scan_cons_key apps info arg rest f h, List.flatMap_cons, ih]
      simp [appInfo.tokens]

theorem scan_names (apps : Apps Ctx ε σ) (info : appInfo Ctx ε σ) (xs : List String) :
    (scan apps [] info xs).map appInfo.Name = info.Name :: xs.filter (isKey apps) := by
  induction xs generalizing info with
  | nil => simp [scan]
  | cons arg rest ih =>
    cases h : apps arg with
    | none =>
      rw [scan_cons_other apps info arg rest h, ih]
      simp [List.filter_cons, isKey, h]
    | some f =>
      rw [scan_cons_key apps info arg rest f h, List.map_cons, ih]
      simp [List.filter_cons, isKey, h]

theorem scan_funcs (apps : Apps Ctx ε σ) (info : appInfo Ctx ε σ) (xs : List String) :
    ∀ e ∈ (scan apps [] info xs).drop 1, apps e.Name = some e.Func := by
  induction xs generalizing info with
  | nil => simp [scan]
  | cons arg rest ih =>
    cases h : apps arg with
    | none =>
      rw [scan_cons_other apps info arg rest h]
      exact ih _
    | some f =>
      rw [scan_cons_key apps info arg rest f h]
      intro e he
      simp only [List.drop_succ_cons, List.drop_zero] at he
      obtain ⟨a, tl, hscan⟩ := scan_first apps { Name := arg, Args := [], Func := f } rest
      have ih2 := ih { Name := arg, Args := [], Func := f }
      rw [hscan] at he ih2
      rcases List.mem_cons.1 he with rfl | hmem
      · exact h
      · exact ih2 e (by simpa using hmem)

theorem scan_args_no_key (apps : Apps Ctx ε σ) (info : appInfo Ctx ε σ) (xs : List String)
    (hinfo : ∀ a ∈ info.Args, isKey apps a = false) :
    ∀ e ∈ scan apps [] info xs, ∀ a ∈ e.Args, isKey apps a = false := by
  induction xs generalizing info with
  | nil => simpa [scan] using hinfo
  | cons arg rest ih =>
    cases h : apps arg with
    | none =>
      rw [scan_cons_other apps info arg rest h]
      apply ih
      intro a ha
      rcases List.mem_append.1 ha with h1 | h1
      · exact hinfo a h1
      · have : a = arg := by simpa using h1
        simp [this, isKey, h]
    | some f =>
      rw [scan_cons_key apps info arg rest f h]
      intro e he
      rcases List.mem_cons.1 he with rfl | hmem
      · exact hinfo
      · exact ih { Name := arg, Args := [], Func := f } (by simp) e hmem

theorem scan_head (apps : Apps Ctx ε σ) (info : appInfo Ctx ε σ) (xs : List String) :
    (scan apps [] info xs).head?
      = some { info with Args := info.Args ++ xs.takeWhile (fun a => !isKey apps a) } := by
  induction xs generalizing info with
  | nil => simp [scan]
  | cons arg rest ih =>
    cases h : apps arg with
    | none =>
      rw [scan_cons_other apps info arg rest h, ih]
      simp [List.takeWhile_cons, isKey, h]
    | some f =>
      rw [scan_cons_key apps info arg rest f h]
      simp [List.takeWhile_cons, isKey, h]

theorem scan_occurrence (apps : Apps Ctx ε σ) (info : appInfo Ctx ε σ) (pre : List String)
    (name : String) (post : List String) (f : AppFunc Ctx ε σ) (h : apps name = some f) :
    (scan apps [] info (pre ++ name :: post))[1 + (pre.filter (isKey apps)).length]?
      = some { Name := name, Args := post.takeWhile (fun a => !isKey apps a), Func := f } := by
  induction pre generalizing info with
  | nil =>
    have hh := scan_head apps { Name := name, Args := [], Func := f } post
    simp only [List.nil_append, List.filter_nil, List.length_nil, Nat.add_zero]
    rw [scan_cons_key apps info name post f h]
    simpa [List.head?_eq_getElem?] using hh
  | cons arg pre ih =>
    cases hk : apps arg with
    | none =>
      rw [List.cons_append, scan_cons_other apps info arg _ hk]
      simpa [List.filter_cons, isKey, hk] using ih _
    | some g =>
      rw [List.cons_append, scan_cons_key apps info arg _ g hk]
      have := ih { Name := arg, Args := [], Func := g }
      simp only [List.filter_cons, isKey, hk, Option.isSome_some, if_true, List.length_cons]
      rw [show 1 + ((pre.filter (isKey apps)).length + 1)
        = (1 + (pre.filter (isKey apps)).length) + 1 by omega]
      simpa [isKey] using this

/-! ## Claims about `Run` -/

/-- C1 (partitioning round-trip): on the vector `[id] ++ prefix ++ name_1 :: args_1 ++ ...`
with at least one block, every `name_i` a registry key and no key in `prefix`
nor in any `args_i`, `Run` returns no error, `unclaimedArgs` is `prefix`, and the
entries captured by the returned runnable are `(name_1, args_1), ...` in that order. -/
theorem partition_roundtrip (pRun : Ctx → List (SpawnCall Ctx ε σ) → σ → Outcome ε σ)
    (apps : Apps Ctx ε σ) (id : String) (pre : List String)
    (pairs : List (String × List String))
    (hne : pairs ≠ [])
    (hname : ∀ p ∈ pairs, isKey apps p.1 = true)
    (hpre : ∀ a ∈ pre, isKey apps a = false)
    (hargs : ∀ p ∈ pairs, ∀ a ∈ p.2, isKey apps a = false) :
    (Run pRun apps ([id] ++ pre ++ pairs.flatMap fun p => p.1 :: p.2)).err = none
      ∧ (Run pRun apps ([id] ++ pre ++ pairs.flatMap fun p => p.1 :: p.2)).unclaimedArgs = pre
      ∧ (Run pRun apps ([id] ++ pre ++ pairs.flatMap fun p => p.1 :: p.2)).runnable
          = some (runTask pRun (entries apps ([id] ++ pre ++ pairs.flatMap fun p => p.1 :: p.2)))
      ∧ (entries apps ([id] ++ pre ++ pairs.flatMap fun p => p.1 :: p.2)).map
          (fun e => (e.Name, e.Args)) = pairs := by
  obtain ⟨rest, hscan, hmap⟩ :=
    scan_blocks apps (appInfo.zero : appInfo Ctx ε σ) pre pairs hname hpre hargs
  have hp : parsedApps apps ([id] ++ pre ++ pairs.flatMap fun p => p.1 :: p.2)
      = { (appInfo.zero : appInfo Ctx ε σ) with
          Args := (appInfo.zero : appInfo Ctx ε σ).Args ++ pre } :: rest := by
    simpa [parsedApps] using hscan
  have he : entries apps ([id] ++ pre ++ pairs.flatMap fun p => p.1 :: p.2) = rest := by
    unfold entries
    rw [hp]
    rfl
  have hrest : rest ≠ [] := by
    intro h
    rw [h] at hmap
    exact hne (by simpa using hmap.symm)
  have hlen : 2 ≤ ([id] ++ pre ++ pairs.flatMap fun p => p.1 :: p.2).length := by
    cases pairs with
    | nil => exact absurd rfl hne
    | cons p ps => simp; omega
  obtain ⟨first, hfirst, hrun⟩ := Run_ok pRun apps _ hlen (by rw [he]; exact hrest)
  have hf : first = { (appInfo.zero : appInfo Ctx ε σ) with
      Args := (appInfo.zero : appInfo Ctx ε σ).Args ++ pre } := by
    rw [hp] at hfirst
    exact (List.cons.inj hfirst).1.symm
  rw [hrun, he]
  refine ⟨rfl, ?_, rfl, hmap⟩
  simp [hf, appInfo.zero]

/-- Witness for C1: a prefix and two blocks, the second without arguments. -/
theorem partition_roundtrip_witness :
    ([("app1", ["--y", "2"]), ("app2", [])] : List (String × List String)) ≠ []
      ∧ (∀ p ∈ ([("app1", ["--y", "2"]), ("app2", [])] : List (String × List String)),
          isKey newApps p.1 = true)
      ∧ (∀ a ∈ ["--x", "1"], isKey newApps a = false)
      ∧ (∀ p ∈ ([("app1", ["--y", "2"]), ("app2", [])] : List (String × List String)),
          ∀ a ∈ p.2, isKey newApps a = false)
      ∧ (Run seqRun newApps (["box"] ++ ["--x", "1"]
          ++ [("app1", ["--y", "2"]), ("app2", [])].flatMap fun p => p.1 :: p.2)).err = none
      ∧ (Run seqRun newApps (["box"] ++ ["--x", "1"]
          ++ [("app1", ["--y", "2"]), ("app2", [])].flatMap fun p => p.1 :: p.2)).unclaimedArgs
          = ["--x", "1"]
      ∧ (Run seqRun newApps (["box"] ++ ["--x", "1"]
          ++ [("app1", ["--y", "2"]), ("app2", [])].flatMap fun p => p.1 :: p.2)).runnable
          = some (runTask seqRun (entries newApps (["box"] ++ ["--x", "1"]
              ++ [("app1", ["--y", "2"]), ("app2", [])].flatMap fun p => p.1 :: p.2)))
      ∧ (entries newApps (["box"] ++ ["--x", "1"]
          ++ [("app1", ["--y", "2"]), ("app2", [])].flatMap fun p => p.1 :: p.2)).map
            (fun e => (e.Name, e.Args))
          = [("app1", ["--y", "2"]), ("app2", [])] :=
  ⟨by decide, by decide, by decide, by decide,
    partition_roundtrip seqRun newApps "box" ["--x", "1"] [("app1", ["--y", "2"]), ("app2", [])]
      (by decide) (by decide) (by decide) (by decide)⟩

/-- C2: `Run` returns an error exactly when the vector has fewer than 2 elements or no
element from index 1 on is a registry key; it succeeds exactly when the vector has at
least 2 elements and some element after index 0 is a key; on success the sequence of
invocation entries is non-empty. -/
theorem error_iff (pRun : Ctx → List (SpawnCall Ctx ε σ) → σ → Outcome ε σ)
    (apps : Apps Ctx ε σ) (args : List String) :
    ((Run pRun apps args).err.isSome = true
        ↔ (args.length < 2 ∨ ∀ a ∈ args.drop 1, isKey apps a = false))
      ∧ ((Run pRun apps args).err = none
        ↔ (2 ≤ args.length ∧ ∃ a ∈ args.drop 1, isKey apps a = true))
      ∧ ((Run pRun apps args).err = none → entries apps args ≠ []) := by
  have hent : entries apps args ≠ [] ↔ ∃ a ∈ args.drop 1, isKey apps a = true := by
    rw [← List.length_pos, entries_length, List.length_pos]
    constructor
    · intro h
      obtain ⟨a, ha⟩ := List.exists_mem_of_ne_nil _ h
      exact ⟨a, (List.mem_filter.1 ha).1, (List.mem_filter.1 ha).2⟩
    · rintro ⟨a, ha, hk⟩
      exact List.ne_nil_of_mem (List.mem_filter.2 ⟨ha, hk⟩)
  have hiff := Run_err_eq_none_iff pRun apps args
  refine ⟨?_, ?_, fun h => (hiff.1 h).2⟩
  · rw [← Option.not_isSome_iff_eq_none] at hiff
    constructor
    · intro h
      by_cases hl : args.length < 2
      · exact Or.inl hl
      · right
        intro a ha
        by_contra hk
        have : (Run pRun apps args).err.isSome ≠ true :=
          hiff.2 ⟨by omega, hent.2 ⟨a, ha, by simpa using hk⟩⟩
        exact this h
    · intro h
      by_contra hn
      obtain ⟨hl, he⟩ := hiff.1 hn
      obtain ⟨a, ha, hk⟩ := hent.1 he
      rcases h with h | h
      · omega
      · simp [h a ha] at hk
  · rw [hiff, hent]

/-- C3: a vector with fewer than 2 tokens makes `Run` fail with the error
"no arguments provided" and return a nil runnable, for any registry and any token. -/
theorem insufficient_arguments (pRun : Ctx → List (SpawnCall Ctx ε σ) → σ → Outcome ε σ)
    (apps : Apps Ctx ε σ) (args : List String) (h : args.length < 2) :
    (Run pRun apps args).err = some "no arguments provided"
      ∧ (Run pRun apps args).runnable = none := by
  rw [Run_short pRun apps args h]
  exact ⟨rfl, rfl⟩

/-- Witness for C3: a single token that is a registered name. -/
theorem insufficient_arguments_witness :
    ["app1"].length < 2
      ∧ (Run seqRun newApps ["app1"]).err = some "no arguments provided"
      ∧ (Run seqRun newApps ["app1"]).runnable = none :=
  ⟨by decide, insufficient_arguments seqRun newApps ["app1"] (by decide)⟩

/-- C4: a vector with at least 2 tokens none of which, after index 0, is a registry key
makes `Run` fail with the error "no applications to execute", which is not the error
"no arguments provided", and return a nil runnable. -/
theorem no_applications_selected (pRun : Ctx → List (SpawnCall Ctx ε σ) → σ → Outcome ε σ)
    (apps : Apps Ctx ε σ) (args : List String) (h : 2 ≤ args.length)
    (hno : ∀ a ∈ args.drop 1, isKey apps a = false) :
    (Run pRun apps args).err = some "no applications to execute"
      ∧ (Run pRun apps args).err ≠ some "no arguments provided"
      ∧ (Run pRun apps args).runnable = none := by
  have he : entries apps args = [] := by
    rw [← List.length_eq_zero, entries_length, List.length_eq_zero, List.filter_eq_nil_iff]
    intro a ha
    simp [hno a ha]
  rw [Run_no_apps pRun apps args h he]
  exact ⟨rfl, by simp, rfl⟩

/-- Witness for C4: the vector of `TestNoApps`, with element 0 a registered name. -/
theorem no_applications_selected_witness :
    2 ≤ ["app1", "noApp"].length
      ∧ (∀ a ∈ ["app1", "noApp"].drop 1, isKey newApps a = false)
      ∧ (Run seqRun newApps ["app1", "noApp"]).err = some "no applications to execute"
      ∧ (Run seqRun newApps ["app1", "noApp"]).err ≠ some "no arguments provided"
      ∧ (Run seqRun newApps ["app1", "noApp"]).runnable = none :=
  ⟨by decide, by decide,
    no_applications_selected seqRun newApps ["app1", "noApp"] (by decide) (by decide)⟩

/-- C5: whenever `Run` returns an error, `unclaimedArgs` is empty and the runnable is
nil; whenever `Run` returns no error, the runnable is not nil. -/
theorem error_returns_nothing (pRun : Ctx → List (SpawnCall Ctx ε σ) → σ → Outcome ε σ)
    (apps : Apps Ctx ε σ) (args : List String) :
    ((Run pRun apps args).err ≠ none →
        (Run pRun apps args).unclaimedArgs = [] ∧ (Run pRun apps args).runnable = none)
      ∧ ((Run pRun apps args).err = none → (Run pRun apps args).runnable.isSome = true) := by
  by_cases h : args.length < 2
  · rw [Run_short pRun apps args h]
    simp
  · by_cases h2 : entries apps args = []
    · rw [Run_no_apps pRun apps args (by omega) h2]
      simp
    · obtain ⟨first, _, hrun⟩ := Run_ok pRun apps args (by omega) h2
      rw [hrun]
      simp

/-- Witness for C5: `TestOneArguments` (error) and `TestOneAppNoArguments` (no error). -/
theorem error_returns_nothing_witness :
    (Run seqRun newApps ["box"]).err ≠ none
      ∧ ((Run seqRun newApps ["box"]).unclaimedArgs = []
        ∧ (Run seqRun newApps ["box"]).runnable = none)
      ∧ (Run seqRun newApps ["box", "app1"]).err = none
      ∧ (Run seqRun newApps ["box", "app1"]).runnable.isSome = true :=
  ⟨by decide, (error_returns_nothing seqRun newApps ["box"]).1 (by decide), by decide,
    (error_returns_nothing seqRun newApps ["box", "app1"]).2 (by decide)⟩

/-- A vector with exactly one key after index 0 splits around that key. -/
theorem split_single_key (apps : Apps Ctx ε σ) (xs : List String)
    (hone : (xs.filter (isKey apps)).length = 1) :
    ∃ pre name post, xs = pre ++ name :: post ∧ isKey apps name = true
      ∧ (∀ a ∈ pre, isKey apps a = false) ∧ (∀ a ∈ post, isKey apps a = false) := by
  obtain ⟨name, hname⟩ := List.length_eq_one.1 hone
  have hmem : name ∈ xs.filter (isKey apps) := by simp [hname]
  obtain ⟨hin, hk⟩ := List.mem_filter.1 hmem
  obtain ⟨pre, post, hsplit⟩ := List.append_of_mem hin
  refine ⟨pre, name, post, hsplit, hk, ?_, ?_⟩
  all_goals
    intro a ha
    by_contra hc
    have hka : isKey apps a = true := by simpa using hc
    rw [hsplit, List.filter_append, List.filter_cons, if_pos hk, List.length_append,
      List.length_cons] at hone
  · have : 0 < (pre.filter (isKey apps)).length :=
      List.length_pos_of_mem (List.mem_filter.2 ⟨ha, hka⟩)
    omega
  · have : 0 < (post.filter (isKey apps)).length :=
      List.length_pos_of_mem (List.mem_filter.2 ⟨ha, hka⟩)
    omega

/-- C6 (single-entry execution): when `Run` succeeds on a vector with exactly one
occurrence of a registry key after index 0, the vector after index 0 is
`pre ++ name :: post`, the only entry is `(name, post, apps[name])`, and invoking the
returned runnable with a context and a world is exactly one call of that handler with
that context and `post`: same result (nil, error or panic), same effect on the world,
whatever `parallel.Run` does. -/
theorem single_entry_execution (pRun : Ctx → List (SpawnCall Ctx ε σ) → σ → Outcome ε σ)
    (apps : Apps Ctx ε σ) (args : List String)
    (hok : (Run pRun apps args).err = none)
    (hone : ((args.drop 1).filter (isKey apps)).length = 1) :
    ∃ pre name post f task,
      args.drop 1 = pre ++ name :: post
        ∧ apps name = some f
        ∧ entries apps args = [{ Name := name, Args := post, Func := f }]
        ∧ (Run pRun apps args).runnable = some task
        ∧ ∀ (ctx : Ctx) (w : σ), task ctx w = f.call ctx post w := by
  obtain ⟨pre, name, post, hsplit, hk, hpre, hpost⟩ := split_single_key apps _ hone
  obtain ⟨f, hf⟩ : ∃ f, apps name = some f := by
    simpa [isKey, Option.isSome_iff_exists] using hk
  have hp : parsedApps apps args
      = [{ (appInfo.zero : appInfo Ctx ε σ) with
            Args := (appInfo.zero : appInfo Ctx ε σ).Args ++ pre },
          { Name := name, Args := post, Func := f }] := by
    unfold parsedApps
    rw [hsplit, scan_append_key apps _ pre name post f
      (fun a ha => by simpa [isKey] using hpre a ha) hf,
      scan_no_key apps _ post (fun a ha => by simpa [isKey] using hpost a ha)]
    simp
  have he : entries apps args = [{ Name := name, Args := post, Func := f }] := by
    unfold entries
    rw [hp]
    rfl
  refine ⟨pre, name, post, f, _, hsplit, hf, he, (Run_success pRun apps args hok).2, ?_⟩
  intro ctx w
  rw [he]
  simp [runTask]

/-- Witness for C6: the vector of the spec's scenario `box --x 1 app1 --y 2`. -/
theorem single_entry_execution_witness :
    (Run seqRun newApps ["box", "--x", "1", "app1", "--y", "2"]).err = none
      ∧ ((["box", "--x", "1", "app1", "--y", "2"].drop 1).filter (isKey newApps)).length = 1
      ∧ ∃ pre name post f task,
      ["box", "--x", "1", "app1", "--y", "2"].drop 1 = pre ++ name :: post
        ∧ newApps name = some f
        ∧ entries newApps ["box", "--x", "1", "app1", "--y", "2"]
            = [{ Name := name, Args := post, Func := f }]
        ∧ (Run seqRun newApps ["box", "--x", "1", "app1", "--y", "2"]).runnable = some task
        ∧ ∀ (ctx : Option String) (w : List (List String) × List (List String)),
            task ctx w = f.call ctx post w :=
  ⟨by decide, by decide,
    single_entry_execution seqRun newApps ["box", "--x", "1", "app1", "--y", "2"]
      (by decide) (by decide)⟩

/-- C7 (evaluation of the code on `Run(apps, "box", "app1")`, the call of
`TestOneAppNoArguments`): the handler of `app1` is called with the empty argument
list, so `app1Ch` receives `[]` and not `["app1"]` as the test requires. -/
theorem handler_args_lack_name
    (pRun : Option String → List (SpawnCall (Option String) String
      (List (List String) × List (List String))) →
      List (List String) × List (List String) →
      Outcome String (List (List String) × List (List String))) :
    ∃ task, (Run pRun newApps ["box", "app1"]).runnable = some task
      ∧ task none ([], []) = Outcome.ret none ([[]], [])
      ∧ task none ([], []) ≠ Outcome.ret none ([["app1"]], []) := by
  refine ⟨runTask pRun [{ Name := "app1", Args := [], Func := recordingApp 1 }], ?_, ?_, ?_⟩
  · rfl
  · rfl
  · simp [runTask, recordingApp, AppFunc.call]

/-- C8 (exact cover): on success, the returned runnable runs the entries, and the
unclaimed prefix followed by, for each entry in order, its name and its argument
list, is the vector without element 0. -/
theorem exact_cover (pRun : Ctx → List (SpawnCall Ctx ε σ) → σ → Outcome ε σ)
    (apps : Apps Ctx ε σ) (args : List String)
    (hok : (Run pRun apps args).err = none) :
    (Run pRun apps args).runnable = some (runTask pRun (entries apps args))
      ∧ (Run pRun apps args).unclaimedArgs ++ (entries apps args).flatMap appInfo.tokens
        = args.drop 1 := by
  refine ⟨(Run_success pRun apps args hok).2, ?_⟩
  have hp := (Run_success pRun apps args hok).1
  have ht := scan_tokens apps (appInfo.zero : appInfo Ctx ε σ) (args.drop 1)
  change (parsedApps apps args).flatMap appInfo.tokens = _ at ht
  rw [hp] at ht
  simpa [appInfo.tokens, appInfo.zero] using ht

/-- Witness for C8: the vector of `TestTwoAppsWithArguments`, shortened, with a prefix. -/
theorem exact_cover_witness :
    (Run seqRun newApps ["box", "-v", "app1", "--a", "x", "app2", "app1", "y"]).err = none
      ∧ (Run seqRun newApps ["box", "-v", "app1", "--a", "x", "app2", "app1", "y"]).runnable
        = some (runTask seqRun
            (entries newApps ["box", "-v", "app1", "--a", "x", "app2", "app1", "y"]))
      ∧ (Run seqRun newApps ["box", "-v", "app1", "--a", "x", "app2", "app1", "y"]).unclaimedArgs
        ++ (entries newApps ["box", "-v", "app1", "--a", "x", "app2", "app1", "y"]).flatMap
            appInfo.tokens
      = ["box", "-v", "app1", "--a", "x", "app2", "app1", "y"].drop 1 :=
  ⟨by decide,
    exact_cover seqRun newApps ["box", "-v", "app1", "--a", "x", "app2", "app1", "y"]
      (by decide)⟩

/-- C9 (order and multiplicity): on success, the returned runnable runs the entries, the
names of the entries are the elements
after index 0 that are registry keys, in the same order; a key occurring `k` times
after index 0 names `k` entries; and the occurrence of a key preceded by `pre` after
index 0 starts the entry whose index is the number of keys in `pre`, whose arguments
are the tokens that follow this occurrence up to the next key. -/
theorem entries_order_multiplicity (pRun : Ctx → List (SpawnCall Ctx ε σ) → σ → Outcome ε σ)
    (apps : Apps Ctx ε σ) (args : List String)
    (hok : (Run pRun apps args).err = none) :
    (Run pRun apps args).runnable = some (runTask pRun (entries apps args))
      ∧ (entries apps args).map appInfo.Name = (args.drop 1).filter (isKey apps)
      ∧ (∀ name, isKey apps name = true →
          (entries apps args).countP (fun e => e.Name == name) = (args.drop 1).count name)
      ∧ (∀ pre name post, args.drop 1 = pre ++ name :: post → isKey apps name = true →
          ∃ e, (entries apps args)[(pre.filter (isKey apps)).length]? = some e
            ∧ e.Name = name ∧ e.Args = post.takeWhile (fun a => !isKey apps a)) := by
  have hp := (Run_success pRun apps args hok).1
  have hn := scan_names apps (appInfo.zero : appInfo Ctx ε σ) (args.drop 1)
  change (parsedApps apps args).map appInfo.Name = _ at hn
  rw [hp, List.map_cons] at hn
  have hnames : (entries apps args).map appInfo.Name = (args.drop 1).filter (isKey apps) :=
    (List.cons.inj hn).2
  refine ⟨(Run_success pRun apps args hok).2, hnames, ?_, ?_⟩
  · intro name hk
    rw [← List.count_filter hk, ← hnames, List.count, List.countP_map]
    rfl
  · intro pre name post hsplit hk
    obtain ⟨f, hf⟩ : ∃ f, apps name = some f := by
      simpa [isKey, Option.isSome_iff_exists] using hk
    have ho := scan_occurrence apps (appInfo.zero : appInfo Ctx ε σ) pre name post f hf
    rw [← hsplit] at ho
    refine ⟨{ Name := name, Args := post.takeWhile (fun a => !isKey apps a), Func := f },
      ?_, rfl, rfl⟩
    unfold entries
    rw [List.getElem?_drop]
    exact ho

/-- Witness for C9: `app1` occurs twice and yields two entries. -/
theorem entries_order_multiplicity_witness :
    (Run seqRun newApps ["box", "-v", "app1", "--a", "app2", "app1", "y"]).err = none
      ∧ (Run seqRun newApps ["box", "-v", "app1", "--a", "app2", "app1", "y"]).runnable
        = some (runTask seqRun (entries newApps ["box", "-v", "app1", "--a", "app2", "app1", "y"]))
      ∧ (entries newApps ["box", "-v", "app1", "--a", "app2", "app1", "y"]).map appInfo.Name
        = (["box", "-v", "app1", "--a", "app2", "app1", "y"].drop 1).filter (isKey newApps)
      ∧ (∀ name, isKey newApps name = true →
          (entries newApps ["box", "-v", "app1", "--a", "app2", "app1", "y"]).countP
              (fun e => e.Name == name)
            = (["box", "-v", "app1", "--a", "app2", "app1", "y"].drop 1).count name)
      ∧ (∀ pre name post,
          ["box", "-v", "app1", "--a", "app2", "app1", "y"].drop 1 = pre ++ name :: post →
          isKey newApps name = true →
          ∃ e, (entries newApps ["box", "-v", "app1", "--a", "app2", "app1", "y"])[
                (pre.filter (isKey newApps)).length]? = some e
            ∧ e.Name = name ∧ e.Args = post.takeWhile (fun a => !isKey newApps a)) :=
  ⟨by decide,
    entries_order_multiplicity seqRun newApps
      ["box", "-v", "app1", "--a", "app2", "app1", "y"] (by decide)⟩

/-- C10: on success, the returned runnable runs the entries, and no entry's argument
list contains a registry key. -/
theorem entry_args_no_key (pRun : Ctx → List (SpawnCall Ctx ε σ) → σ → Outcome ε σ)
    (apps : Apps Ctx ε σ) (args : List String)
    (hok : (Run pRun apps args).err = none) :
    (Run pRun apps args).runnable = some (runTask pRun (entries apps args))
      ∧ ∀ e ∈ entries apps args, ∀ a ∈ e.Args, isKey apps a = false := by
  refine ⟨(Run_success pRun apps args hok).2, ?_⟩
  intro e he
  have hall := scan_args_no_key apps (appInfo.zero : appInfo Ctx ε σ) (args.drop 1)
    (by simp [appInfo.zero])
  exact hall e (List.mem_of_mem_drop he)

/-- Witness for C10: a vector in which `app1` occurs twice. -/
theorem entry_args_no_key_witness :
    (Run seqRun newApps ["box", "-v", "app1", "--a", "app2", "app1", "y"]).err = none
      ∧ (Run seqRun newApps ["box", "-v", "app1", "--a", "app2", "app1", "y"]).runnable
        = some (runTask seqRun (entries newApps ["box", "-v", "app1", "--a", "app2", "app1", "y"]))
      ∧ ∀ e ∈ entries newApps ["box", "-v", "app1", "--a", "app2", "app1", "y"],
          ∀ a ∈ e.Args, isKey newApps a = false :=
  ⟨by decide,
    entry_args_no_key seqRun newApps ["box", "-v", "app1", "--a", "app2", "app1", "y"]
      (by decide)⟩

/-! ## Element 0, adjacent names, one-token vectors -/

/-- The result of `Run` depends on the vector only through its length and `args[1:]`. -/
theorem Run_congr (pRun : Ctx → List (SpawnCall Ctx ε σ) → σ → Outcome ε σ)
    (apps : Apps Ctx ε σ) (v1 v2 : List String)
    (hlen : v1.length = v2.length) (hrest : v1.drop 1 = v2.drop 1) :
    Run pRun apps v1 = Run pRun apps v2 := by
  have hp : parsedApps apps v1 = parsedApps apps v2 := by
    unfold parsedApps
    rw [hrest]
  have he : entries apps v1 = entries apps v2 := by
    unfold entries
    rw [hp]
  by_cases h : v1.length < 2
  · rw [Run_short pRun apps v1 h, Run_short pRun apps v2 (by omega)]
  · by_cases h2 : entries apps v1 = []
    · rw [Run_no_apps pRun apps v1 (by omega) h2,
        Run_no_apps pRun apps v2 (by omega) (by rw [← he]; exact h2)]
    · obtain ⟨f1, hf1, hr1⟩ := Run_ok pRun apps v1 (by omega) h2
      obtain ⟨f2, hf2, hr2⟩ := Run_ok pRun apps v2 (by omega) (by rw [← he]; exact h2)
      rw [hp, hf2, he] at hf1
      rw [hr1, hr2, he, (List.cons.inj hf1).1]

/-- Two vectors that agree from index 1 on have the same `args[1:]`. -/
theorem drop_one_eq_of_agree (v1 v2 : List String)
    (hrest : ∀ i, 1 ≤ i → v1[i]? = v2[i]?) : v1.drop 1 = v2.drop 1 := by
  apply List.ext_getElem?
  intro n
  rw [List.getElem?_drop, List.getElem?_drop]
  exact hrest (1 + n) (by omega)

/-- C11 (element 0 is discarded): two vectors of the same length that agree at every
index from 1 on give the same result of `Run` (same error, same unclaimed prefix, same
runnable) and the same entries; on success the entry names are the keys among the
elements after index 0 and the prefix and the entries' tokens make up exactly the
elements after index 0, so element 0 starts no entry and is in no argument list. -/
theorem element_zero_discarded (pRun : Ctx → List (SpawnCall Ctx ε σ) → σ → Outcome ε σ)
    (apps : Apps Ctx ε σ) (v1 v2 : List String)
    (hlen : v1.length = v2.length) (hrest : ∀ i, 1 ≤ i → v1[i]? = v2[i]?) :
    Run pRun apps v1 = Run pRun apps v2
      ∧ entries apps v1 = entries apps v2
      ∧ ((Run pRun apps v1).err = none →
          (entries apps v1).map appInfo.Name = (v1.drop 1).filter (isKey apps)
            ∧ (Run pRun apps v1).unclaimedArgs ++ (entries apps v1).flatMap appInfo.tokens
              = v1.drop 1) := by
  have hd := drop_one_eq_of_agree v1 v2 hrest
  refine ⟨Run_congr pRun apps v1 v2 hlen hd, ?_, ?_⟩
  · unfold entries parsedApps
    rw [hd]
  · intro hok
    have hp := (Run_success pRun apps v1 hok).1
    have hn := scan_names apps (appInfo.zero : appInfo Ctx ε σ) (v1.drop 1)
    have ht := scan_tokens apps (appInfo.zero : appInfo Ctx ε σ) (v1.drop 1)
    change (parsedApps apps v1).map appInfo.Name = _ at hn
    change (parsedApps apps v1).flatMap appInfo.tokens = _ at ht
    rw [hp] at hn ht
    rw [List.map_cons] at hn
    exact ⟨(List.cons.inj hn).2, by simpa [appInfo.tokens, appInfo.zero] using ht⟩

/-- Witness for C11: element 0 is the registered name `app1` in one vector and `box`
in the other. -/
theorem element_zero_discarded_witness :
    ["app1", "-v", "app2", "x"].length = ["box", "-v", "app2", "x"].length
      ∧ (∀ i, 1 ≤ i → ["app1", "-v", "app2", "x"][i]? = ["box", "-v", "app2", "x"][i]?)
      ∧ Run seqRun newApps ["app1", "-v", "app2", "x"]
          = Run seqRun newApps ["box", "-v", "app2", "x"]
      ∧ entries newApps ["app1", "-v", "app2", "x"] = entries newApps ["box", "-v", "app2", "x"]
      ∧ ((Run seqRun newApps ["app1", "-v", "app2", "x"]).err = none →
          (entries newApps ["app1", "-v", "app2", "x"]).map appInfo.Name
              = (["app1", "-v", "app2", "x"].drop 1).filter (isKey newApps)
            ∧ (Run seqRun newApps ["app1", "-v", "app2", "x"]).unclaimedArgs
                ++ (entries newApps ["app1", "-v", "app2", "x"]).flatMap appInfo.tokens
              = ["app1", "-v", "app2", "x"].drop 1) :=
  ⟨by decide,
    fun i hi => by cases i with
      | zero => omega
      | succ j => simp,
    element_zero_discarded seqRun newApps ["app1", "-v", "app2", "x"] ["box", "-v", "app2", "x"]
      (by decide)
      (fun i hi => by cases i with
        | zero => omega
        | succ j => simp)⟩

/-- C12 (adjacent names): when the elements after index 0 are `pre ++ name :: post` with
`name` a registry key and `post` empty or starting with a registry key, `Run` succeeds
and the entry started by this occurrence of `name` has an empty argument list; and
`Run(newApps, "box", "app1", "app2")` gives the empty unclaimed prefix and the entries
`(app1, [])`, `(app2, [])`. -/
theorem adjacent_names_empty_args (pRun : Ctx → List (SpawnCall Ctx ε σ) → σ → Outcome ε σ)
    (apps : Apps Ctx ε σ) (args pre post : List String) (name : String)
    (hsplit : args.drop 1 = pre ++ name :: post)
    (hk : isKey apps name = true)
    (hnext : post = [] ∨ ∃ next post2, post = next :: post2 ∧ isKey apps next = true) :
    (Run pRun apps args).err = none
      ∧ (Run pRun apps args).runnable = some (runTask pRun (entries apps args))
      ∧ (∃ e, (entries apps args)[(pre.filter (isKey apps)).length]? = some e
          ∧ e.Name = name ∧ e.Args = [])
      ∧ (Run seqRun newApps ["box", "app1", "app2"]).err = none
      ∧ (Run seqRun newApps ["box", "app1", "app2"]).unclaimedArgs = []
      ∧ (entries newApps ["box", "app1", "app2"]).map (fun e => (e.Name, e.Args))
          = [("app1", []), ("app2", [])] := by
  have hlen : 2 ≤ args.length := by
    have h := congrArg List.length hsplit
    simp at h
    omega
  have hne : entries apps args ≠ [] := by
    rw [← List.length_pos, entries_length, hsplit, List.length_pos]
    exact List.ne_nil_of_mem (List.mem_filter.2 ⟨by simp, hk⟩)
  have hok : (Run pRun apps args).err = none :=
    (Run_err_eq_none_iff pRun apps args).2 ⟨hlen, hne⟩
  obtain ⟨f, hf⟩ : ∃ f, apps name = some f := by
    simpa [isKey, Option.isSome_iff_exists] using hk
  have ho := scan_occurrence apps (appInfo.zero : appInfo Ctx ε σ) pre name post f hf
  rw [← hsplit] at ho
  have htw : post.takeWhile (fun a => !isKey apps a) = [] := by
    rcases hnext with h | ⟨next, post2, h, hk2⟩
    · simp [h]
    · simp [h, List.takeWhile_cons, hk2]
  rw [htw] at ho
  refine ⟨hok, (Run_success pRun apps args hok).2,
    ⟨{ Name := name, Args := [], Func := f }, ?_, rfl, rfl⟩, by decide, by decide, by decide⟩
  unfold entries
  rw [List.getElem?_drop]
  exact ho

/-- Witness for C12: `app1` directly followed by `app2`, after an unclaimed prefix. -/
theorem adjacent_names_empty_args_witness :
    ["box", "-v", "app1", "app2", "x"].drop 1 = ["-v"] ++ "app1" :: ["app2", "x"]
      ∧ isKey newApps "app1" = true
      ∧ (Run seqRun newApps ["box", "-v", "app1", "app2", "x"]).err = none
      ∧ (Run seqRun newApps ["box", "-v", "app1", "app2", "x"]).runnable
          = some (runTask seqRun (entries newApps ["box", "-v", "app1", "app2", "x"]))
      ∧ (∃ e, (entries newApps ["box", "-v", "app1", "app2", "x"])[
              (["-v"].filter (isKey newApps)).length]? = some e
          ∧ e.Name = "app1" ∧ e.Args = [])
      ∧ (Run seqRun newApps ["box", "app1", "app2"]).err = none
      ∧ (Run seqRun newApps ["box", "app1", "app2"]).unclaimedArgs = []
      ∧ (entries newApps ["box", "app1", "app2"]).map (fun e => (e.Name, e.Args))
          = [("app1", []), ("app2", [])] :=
  ⟨by decide, by decide,
    adjacent_names_empty_args seqRun newApps ["box", "-v", "app1", "app2", "x"] ["-v"]
      ["app2", "x"] "app1" (by decide) (by decide)
      (Or.inr ⟨"app2", ["x"], rfl, by decide⟩)⟩

/-- C15 as stated fails: on the one-token vector `["box"]` the error of `Run` is not
"no applications to execute". -/
theorem one_token_not_no_applications :
    (Run seqRun newApps ["box"]).err ≠ some "no applications to execute" := by
  decide

/-- C15 amended: on every one-element vector, for every registry, the error returned by
`Run` is "no arguments provided" (the first guard), not "no applications to execute". -/
theorem one_token_insufficient_arguments
    (pRun : Ctx → List (SpawnCall Ctx ε σ) → σ → Outcome ε σ)
    (apps : Apps Ctx ε σ) (token : String) :
    (Run pRun apps [token]).err = some "no arguments provided"
      ∧ (Run pRun apps [token]).err ≠ some "no applications to execute" := by
  rw [Run_short pRun apps [token] (by simp)]
  exact ⟨rfl, by simp⟩

/-! ## The multi-entry runnable, the unclaimed prefix, the handlers -/

/-- A successful `Run` saw a registry key after index 0. -/
theorem Run_success_has_key (pRun : Ctx → List (SpawnCall Ctx ε σ) → σ → Outcome ε σ)
    (apps : Apps Ctx ε σ) (args : List String) :
    (Run pRun apps args).err = none → ∃ a ∈ args.drop 1, isKey apps a = true := by
  intro hok
  have hne := ((Run_err_eq_none_iff pRun apps args).1 hok).2
  rw [← List.length_pos, entries_length, List.length_pos] at hne
  obtain ⟨a, ha⟩ := List.exists_mem_of_ne_nil _ hne
  exact ⟨a, (List.mem_filter.1 ha).1, (List.mem_filter.1 ha).2⟩

/-- C14 (independence in the multi-entry case): when `Run` succeeds with two entries or
more, the returned runnable hands `parallel.Run` exactly one spawn call per entry, in
order; the call for entry `i` carries entry `i`'s name, the mode `parallel.Fail`, and a
task that is one call of entry `i`'s own handler with entry `i`'s own argument list,
whatever the other entries are. -/
theorem multi_entry_independence (pRun : Ctx → List (SpawnCall Ctx ε σ) → σ → Outcome ε σ)
    (apps : Apps Ctx ε σ) (args : List String)
    (hok : (Run pRun apps args).err = none)
    (hmulti : 2 ≤ (entries apps args).length) :
    ∃ task calls,
      (Run pRun apps args).runnable = some task
        ∧ (∀ (ctx : Ctx) (w : σ), task ctx w = pRun ctx calls w)
        ∧ calls.length = (entries apps args).length
        ∧ ∀ (i : Nat) (e : appInfo Ctx ε σ), (entries apps args)[i]? = some e →
            ∃ c, calls[i]? = some c ∧ c.name = e.Name ∧ c.onExit = OnExit.Fail
              ∧ ∀ (ctx : Ctx) (w : σ), c.task ctx w = e.Func.call ctx e.Args w := by
  refine ⟨runTask pRun (entries apps args),
    (entries apps args).map (fun app =>
      { name := app.Name, onExit := OnExit.Fail,
        task := fun ctx w => app.Func.call ctx app.Args w }),
    (Run_success pRun apps args hok).2, ?_, by simp, ?_⟩
  · intro ctx w
    have hne : ¬ (entries apps args).length = 1 := by omega
    simp [runTask, hne]
  · intro i e hi
    refine ⟨SpawnCall.mk e.Name OnExit.Fail (fun ctx w => e.Func.call ctx e.Args w),
      ?_, rfl, rfl, fun _ _ => rfl⟩
    rw [List.getElem?_map, hi]
    rfl

/-- Witness for C14: the vector of `TestTwoAppsWithArguments`, shortened. -/
theorem multi_entry_independence_witness :
    (Run seqRun newApps ["box", "app1", "--app1-arg1", "app2", "--app2-arg1"]).err = none
      ∧ 2 ≤ (entries newApps ["box", "app1", "--app1-arg1", "app2", "--app2-arg1"]).length
      ∧ ∃ task calls,
        (Run seqRun newApps ["box", "app1", "--app1-arg1", "app2", "--app2-arg1"]).runnable
            = some task
          ∧ (∀ (ctx : Option String) (w : List (List String) × List (List String)),
              task ctx w = seqRun ctx calls w)
          ∧ calls.length
              = (entries newApps ["box", "app1", "--app1-arg1", "app2", "--app2-arg1"]).length
          ∧ ∀ (i : Nat)
              (e : appInfo (Option String) String (List (List String) × List (List String))),
              (entries newApps ["box", "app1", "--app1-arg1", "app2", "--app2-arg1"])[i]?
                = some e →
              ∃ c, calls[i]? = some c ∧ c.name = e.Name ∧ c.onExit = OnExit.Fail
                ∧ ∀ (ctx : Option String) (w : List (List String) × List (List String)),
                    c.task ctx w = e.Func.call ctx e.Args w :=
  ⟨by decide, by decide,
    multi_entry_independence seqRun newApps
      ["box", "app1", "--app1-arg1", "app2", "--app2-arg1"] (by decide) (by decide)⟩

/-- With the sequential task group, the two handlers of `newApps` each record their own
argument list (the tokens after their name, without the name). -/
theorem two_apps_record_own_args :
    runTask seqRun (entries newApps ["box", "app1", "--app1-arg1", "app2", "--app2-arg1"])
        none ([], [])
      = Outcome.ret none ([["--app1-arg1"]], [["--app2-arg1"]]) := by
  rfl

/-- A list with a key splits at its first key: the longest key-free prefix, the key,
the rest. -/
theorem split_first_key (apps : Apps Ctx ε σ) (xs : List String)
    (h : ∃ a ∈ xs, isKey apps a = true) :
    ∃ name post, xs = xs.takeWhile (fun a => !isKey apps a) ++ name :: post
      ∧ isKey apps name = true := by
  induction xs with
  | nil =>
    obtain ⟨a, ha, _⟩ := h
    simp at ha
  | cons x xs ih =>
    by_cases hx : isKey apps x = true
    · exact ⟨x, xs, by simp [List.takeWhile_cons, hx], hx⟩
    · obtain ⟨a, ha, hka⟩ := h
      have hmem : a ∈ xs := by
        rcases List.mem_cons.1 ha with rfl | h1
        · exact absurd hka hx
        · exact h1
      obtain ⟨name, post, hsplit, hk⟩ := ih ⟨a, hmem, hka⟩
      refine ⟨name, post, ?_, hk⟩
      have hx2 : isKey apps x = false := by simpa using hx
      simp only [List.takeWhile_cons, hx2, Bool.not_false, if_true, List.cons_append]
      rw [← hsplit]

/-- The unclaimed prefix returned by a successful `Run`. -/
theorem Run_unclaimedArgs (pRun : Ctx → List (SpawnCall Ctx ε σ) → σ → Outcome ε σ)
    (apps : Apps Ctx ε σ) (args : List String)
    (hok : (Run pRun apps args).err = none) :
    (Run pRun apps args).unclaimedArgs
      = (args.drop 1).takeWhile (fun a => !isKey apps a) := by
  have hp := (Run_success pRun apps args hok).1
  have hh := scan_head apps (appInfo.zero : appInfo Ctx ε σ) (args.drop 1)
  change (parsedApps apps args).head? = _ at hh
  rw [hp] at hh
  simp only [List.head?_cons, Option.some.injEq] at hh
  have := congrArg appInfo.Args hh
  simpa [appInfo.zero] using this

/-- C16: on success, the unclaimed prefix is the longest prefix of the elements after
index 0 that contains no registry key: it is `takeWhile` of the non-keys, it is followed
in the vector by a registry key (the first recognized name), it contains no key, every
key-free prefix of the elements after index 0 is a prefix of it, and it is empty exactly
when element 1 is a registry key. -/
theorem unclaimed_prefix_longest (pRun : Ctx → List (SpawnCall Ctx ε σ) → σ → Outcome ε σ)
    (apps : Apps Ctx ε σ) (args : List String)
    (hok : (Run pRun apps args).err = none) :
    (Run pRun apps args).unclaimedArgs = (args.drop 1).takeWhile (fun a => !isKey apps a)
      ∧ (∃ name post, args.drop 1 = (Run pRun apps args).unclaimedArgs ++ name :: post
          ∧ isKey apps name = true)
      ∧ (∀ a ∈ (Run pRun apps args).unclaimedArgs, isKey apps a = false)
      ∧ (∀ p, p <+: args.drop 1 → (∀ a ∈ p, isKey apps a = false) →
          p <+: (Run pRun apps args).unclaimedArgs)
      ∧ ((Run pRun apps args).unclaimedArgs = []
          ↔ ∃ a, args[1]? = some a ∧ isKey apps a = true) := by
  have hu := Run_unclaimedArgs pRun apps args hok
  have hkey : ∃ a ∈ args.drop 1, isKey apps a = true :=
    Run_success_has_key pRun apps args hok
  obtain ⟨name, post, hsplit, hk⟩ := split_first_key apps (args.drop 1) hkey
  rw [← hu] at hsplit
  have hnokey : ∀ a ∈ (Run pRun apps args).unclaimedArgs, isKey apps a = false := by
    intro a ha
    rw [hu] at ha
    simpa using List.mem_takeWhile_imp ha
  refine ⟨hu, ⟨name, post, hsplit, hk⟩, hnokey, ?_, ?_⟩
  · intro p hp hpk
    have hupre : (Run pRun apps args).unclaimedArgs <+: args.drop 1 :=
      ⟨name :: post, hsplit.symm⟩
    apply List.prefix_of_prefix_length_le hp hupre
    by_contra hlt
    have hlt2 : (Run pRun apps args).unclaimedArgs.length < p.length := by omega
    obtain ⟨t, ht⟩ := hp
    have h1 : (p ++ t)[(Run pRun apps args).unclaimedArgs.length]?
        = p[(Run pRun apps args).unclaimedArgs.length]? := List.getElem?_append_left hlt2
    rw [ht, hsplit] at h1
    have h2 : p[(Run pRun apps args).unclaimedArgs.length]? = some name := by
      rw [← h1, List.getElem?_append_right (Nat.le_refl _)]
      simp
    have := hpk name (List.getElem?_mem h2)
    rw [hk] at this
    exact absurd this (by simp)
  · have h1 : args[1]? = (args.drop 1)[0]? := by
      rw [List.getElem?_drop]
    rw [h1, hsplit]
    constructor
    · intro he
      rw [he]
      exact ⟨name, by simp, hk⟩
    · rintro ⟨a, ha, hka⟩
      cases hcase : (Run pRun apps args).unclaimedArgs with
      | nil => rfl
      | cons x u =>
        rw [hcase] at ha
        have hxa : x = a := by simpa using ha
        have := hnokey x (by rw [hcase]; simp)
        rw [hxa, hka] at this
        exact absurd this (by simp)

/-- Witness for C16: the vector of `TestTwoAppsWithArgumentsAndBoxArguments`, shortened. -/
theorem unclaimed_prefix_longest_witness :
    (Run seqRun newApps ["box", "--box-arg1", "box-value1", "app1", "x", "app2"]).err = none
      ∧ (Run seqRun newApps
            ["box", "--box-arg1", "box-value1", "app1", "x", "app2"]).unclaimedArgs
          = (["box", "--box-arg1", "box-value1", "app1", "x", "app2"].drop 1).takeWhile
              (fun a => !isKey newApps a)
      ∧ (∃ name post,
          ["box", "--box-arg1", "box-value1", "app1", "x", "app2"].drop 1
              = (Run seqRun newApps
                  ["box", "--box-arg1", "box-value1", "app1", "x", "app2"]).unclaimedArgs
                ++ name :: post
            ∧ isKey newApps name = true)
      ∧ (∀ a ∈ (Run seqRun newApps
            ["box", "--box-arg1", "box-value1", "app1", "x", "app2"]).unclaimedArgs,
          isKey newApps a = false)
      ∧ (∀ p, p <+: ["box", "--box-arg1", "box-value1", "app1", "x", "app2"].drop 1 →
          (∀ a ∈ p, isKey newApps a = false) →
          p <+: (Run seqRun newApps
            ["box", "--box-arg1", "box-value1", "app1", "x", "app2"]).unclaimedArgs)
      ∧ ((Run seqRun newApps
            ["box", "--box-arg1", "box-value1", "app1", "x", "app2"]).unclaimedArgs = []
          ↔ ∃ a, ["box", "--box-arg1", "box-value1", "app1", "x", "app2"][1]? = some a
              ∧ isKey newApps a = true) :=
  ⟨by decide,
    unclaimed_prefix_longest seqRun newApps
      ["box", "--box-arg1", "box-value1", "app1", "x", "app2"] (by decide)⟩

/-- C17 (handler binding): on success, the returned runnable runs the entries, and the
handler of every entry is the one the registry maps the entry's name to
(`entry.Func = apps[entry.Name]`), also when the same name starts several entries. -/
theorem handler_binding (pRun : Ctx → List (SpawnCall Ctx ε σ) → σ → Outcome ε σ)
    (apps : Apps Ctx ε σ) (args : List String)
    (hok : (Run pRun apps args).err = none) :
    (Run pRun apps args).runnable = some (runTask pRun (entries apps args))
      ∧ ∀ e ∈ entries apps args, apps e.Name = some e.Func :=
  ⟨(Run_success pRun apps args hok).2,
    scan_funcs apps (appInfo.zero : appInfo Ctx ε σ) (args.drop 1)⟩

/-- Witness for C17: a vector in which `app1` occurs twice. -/
theorem handler_binding_witness :
    (Run seqRun newApps ["box", "-v", "app1", "--a", "app2", "app1", "y"]).err = none
      ∧ (Run seqRun newApps ["box", "-v", "app1", "--a", "app2", "app1", "y"]).runnable
        = some (runTask seqRun (entries newApps ["box", "-v", "app1", "--a", "app2", "app1", "y"]))
      ∧ ∀ e ∈ entries newApps ["box", "-v", "app1", "--a", "app2", "app1", "y"],
          newApps e.Name = some e.Func :=
  ⟨by decide,
    handler_binding seqRun newApps ["box", "-v", "app1", "--a", "app2", "app1", "y"]
      (by decide)⟩

end

end Annihilation
